import Mathlib

/-
Verification of the markdown normalization / pagination core of the
render-md repository (src/src/App.tsx).

The two core functions are modelled over `List Char` (a JS string is a
sequence of characters; every character occurring in the patterns below is
in the basic multilingual plane, so code points and UTF-16 code units
agree on everything the patterns can distinguish).

  normalizeMarkdown (App.tsx lines 7-12):
    source
      .replace(/﻿|​/g, '')
      .replace(/^[ \t]*[-*_]{3,}[ \t]*$/gm, '')
      .replace(/\n(\*\*` + Thai token + `)/g, '\n\n$1')

  splitIntoPages (App.tsx lines 14-25):
    source.split(/<div\s+[^>]*style=['"][^'"]*page-break-after:\s*always[^'"]*['"][^>]*><\/div>/gi)
      .map(page => page.trim())
      .filter(page => (page.replace(/\s+/g, '').replace(/&nbsp;/g, '')).length > 0)
-/

/- Characters removed by the first replace: BOM and zero-width space. -/
def isInvChar (c : Char) : Bool := c == '\uFEFF' || c == '\u200B'

/- First replace of normalizeMarkdown: delete every BOM / zero-width space. -/
def removeInvisible (s : List Char) : List Char := s.filter (fun c => !isInvChar c)

/- Line terminators recognized by the JS multiline anchors ^ and $. -/
def isLineTerm (c : Char) : Bool :=
  c == '\n' || c == '\r' || c == '\u2028' || c == '\u2029'

def notTerm (c : Char) : Bool := !isLineTerm c

def isSpTab (c : Char) : Bool := c == ' ' || c == '\t'

def isHrChar (c : Char) : Bool := c == '-' || c == '*' || c == '_'

/- A line matches /^[ \t]*[-*_]{3,}[ \t]*$/ exactly when after optional
   leading spaces and tabs there is a run of at least three characters from
   the class [-*_] and everything after that run is spaces and tabs. -/
def isHrLine (l : List Char) : Bool :=
  let afterWs := l.dropWhile isSpTab
  decide (3 ≤ (afterWs.takeWhile isHrChar).length) &&
    (afterWs.dropWhile isHrChar).all isSpTab

/- Decomposition of a string into (line, terminator) chunks: each chunk is a
   terminator-free line paired with the single terminator character that
   ended it (the final chunk has an empty terminator). -/
def linesTerm : List Char → List (List Char × List Char)
  | [] => [([], [])]
  | c :: rest =>
    if isLineTerm c then ([], [c]) :: linesTerm rest
    else
      match linesTerm rest with
      | [] => [([c], [])]
      | (l, t) :: ls => (c :: l, t) :: ls

/- Reassemble chunks into the original string. -/
def joinLT : List (List Char × List Char) → List Char
  | [] => []
  | (l, t) :: ls => l ++ t ++ joinLT ls

/- Reassemble chunks, replacing each horizontal-rule line by the empty line
   (the /gm replace erases the matched line content and keeps terminators). -/
def joinStrip : List (List Char × List Char) → List Char
  | [] => []
  | (l, t) :: ls => (if isHrLine l then [] else l) ++ t ++ joinStrip ls

/- Second replace of normalizeMarkdown: erase standalone horizontal-rule lines. -/
def stripHr (s : List Char) : List Char := joinStrip (linesTerm s)

/- The literal chapter-heading token of the third replace: two asterisks
   followed by the Thai word for "Chapter" (U+0E15 U+0E2D U+0E19 U+0E17
   U+0E35 U+0E48), copied from App.tsx line 11. -/
def tocPat : List Char := "**ตอนที่".data

/- Third replace of normalizeMarkdown: /\n(\*\*token)/g with '\n\n$1'.
   A global replace scans left to right and never rescans the replacement;
   since the token contains no newline, re-scanning the token characters
   (which the recursion on `rest` does) copies them verbatim, so recursing on
   the full tail is equivalent to skipping past the match. -/
def fixToc : List Char → List Char
  | [] => []
  | c :: rest =>
    if c == '\n' && tocPat.isPrefixOf rest then '\n' :: '\n' :: fixToc rest
    else c :: fixToc rest

/- The whole normalizer: the three replaces in source order. -/
def normalizeMarkdown (s : List Char) : List Char :=
  fixToc (stripHr (removeInvisible s))

/- JS whitespace: the character set matched by /\s/ and trimmed by
   String.prototype.trim (WhiteSpace plus LineTerminator). -/
def isJsWs (c : Char) : Bool :=
  c == ' ' || c == '\t' || c == '\n' || c == '\r' || c == '\x0B' ||
  c == '\x0C' || c == '\u00A0' || c == '\u1680' || c == '\u2000' || c == '\u2001' ||
  c == '\u2002' || c == '\u2003' || c == '\u2004' || c == '\u2005' || c == '\u2006' ||
  c == '\u2007' || c == '\u2008' || c == '\u2009' || c == '\u200A' || c == '\u2028' ||
  c == '\u2029' || c == '\u202F' || c == '\u205F' || c == '\u3000' || c == '\uFEFF'

def isQuote (c : Char) : Bool := c == '\'' || c == '"'

def notQuote (c : Char) : Bool := !isQuote c

def notGt (c : Char) : Bool := !(c == '>')

/- The i flag canonicalizes ASCII letters; no non-ASCII character is
   canonicalized onto an ASCII letter by a non-unicode regex, and every
   letter in the pattern is ASCII, so ASCII-only lowering is faithful. -/
def lowerEq (a b : Char) : Bool := a.toLower == b.toLower

/- Match a literal pattern case-insensitively against a prefix of the input,
   returning the remainder on success. -/
def litCI : List Char → List Char → Option (List Char)
  | [], s => some s
  | _ :: _, [] => none
  | p :: ps, c :: cs => if lowerEq p c then litCI ps cs else none

/- All ways a greedy star over a one-character class can consume a prefix of
   s, longest first: s.drop k, ..., s.drop 1, s.drop 0, where k is the length
   of the maximal run of class characters at the front of s. -/
def dropChoices (p : Char → Bool) (s : List Char) : List (List Char) :=
  ((List.range ((s.takeWhile p).length + 1)).reverse).map (fun i => s.drop i)

/- Literal followed by continuation. -/
def matchLit (pat : List Char) (k : List Char → Option (List Char))
    (s : List Char) : Option (List Char) :=
  (litCI pat s).bind k

/- Single character class followed by continuation. -/
def matchCls (p : Char → Bool) (k : List Char → Option (List Char)) :
    List Char → Option (List Char)
  | [] => none
  | c :: rest => if p c then k rest else none

/- Greedy star of a character class with backtracking: try the longest
   consumption first and fall back until the continuation succeeds. -/
def matchStar (p : Char → Bool) (k : List Char → Option (List Char))
    (s : List Char) : Option (List Char) :=
  (dropChoices p s).findSome? k

/- Greedy plus of a character class: like the star but requires at least one
   character (the zero-consumption choice, last in the list, is removed). -/
def matchPlus (p : Char → Bool) (k : List Char → Option (List Char))
    (s : List Char) : Option (List Char) :=
  ((dropChoices p s).dropLast).findSome? k

/- The page-break-marker regex after its leading `<div`:
   \s+ [^>]* style= ['"] [^'"]* page-break-after: \s* always [^'"]* ['"] [^>]* > </div>
   with the i flag, as a backtracking matcher in continuation style. -/
def markerTail : List Char → Option (List Char) :=
  matchPlus isJsWs
    (matchStar notGt
      (matchLit ("style=".data)
        (matchCls isQuote
          (matchStar notQuote
            (matchLit ("page-break-after:".data)
              (matchStar isJsWs
                (matchLit ("always".data)
                  (matchStar notQuote
                    (matchCls isQuote
                      (matchStar notGt
                        (matchLit ("></div>".data) some)))))))))))

/- Attempt to match the whole page-break-marker regex at the head of s,
   returning the remainder after the match. -/
def matchMarker (s : List Char) : Option (List Char) :=
  (litCI ("<div".data) s).bind markerTail

/- String.prototype.split with the marker regex: scan left to right, cut at
   every leftmost match, keep the text between matches (and the boundary
   pieces, which may be empty). Fuel makes the recursion structural; every
   successful match consumes at least the four characters of `<div`, so
   length + 1 units of fuel are never exhausted (see splitAuxF_fuel below). -/
def splitAuxF : Nat → List Char → List Char → List (List Char)
  | 0, acc, _ => [acc.reverse]
  | fuel + 1, acc, s =>
    match matchMarker s with
    | some rem => acc.reverse :: splitAuxF fuel [] rem
    | none =>
      match s with
      | [] => [acc.reverse]
      | c :: rest => splitAuxF fuel (c :: acc) rest

/- page.trim(): remove JS whitespace from both ends. -/
def jsTrim (s : List Char) : List Char :=
  ((s.dropWhile isJsWs).reverse.dropWhile isJsWs).reverse

/- page.replace(/&nbsp;/g, ''): delete literal &nbsp; occurrences, leftmost
   first, never rescanning earlier output. -/
def removeNbsp : List Char → List Char
  | '&' :: 'n' :: 'b' :: 's' :: 'p' :: ';' :: rest => removeNbsp rest
  | c :: rest => c :: removeNbsp rest
  | [] => []

/- The filter body: remove all whitespace, then all literal &nbsp;. -/
def stripPage (p : List Char) : List Char :=
  removeNbsp (p.filter (fun c => !isJsWs c))

/- The whole paginator: split on markers, trim each part, keep the parts
   whose stripped form is non-empty. -/
def splitIntoPages (s : List Char) : List (List Char) :=
  ((splitAuxF (s.length + 1) [] s).map jsTrim).filter
    (fun p => decide (0 < (stripPage p).length))

/- True when some position of s starts a page-break-marker match. -/
def hasMarker : List Char → Bool
  | [] => false
  | c :: rest => (matchMarker (c :: rest)).isSome || hasMarker rest

/- True when s contains the substring "\n" ++ tocPat, the seam the third
   replace of normalizeMarkdown fires on. -/
def hasTocSeam : List Char → Bool
  | [] => false
  | c :: rest => ('\n' :: tocPat).isPrefixOf (c :: rest) || hasTocSeam rest

/- Modelled from the spec wording of claim C7: a string that "consists only
   of whitespace and literal &nbsp; entities". This follows the claim text,
   not the code, and is used only to compare the claim against the code. -/
def specWsNbspOnly : List Char → Bool
  | [] => true
  | '&' :: 'n' :: 'b' :: 's' :: 'p' :: ';' :: rest => specWsNbspOnly rest
  | c :: rest => isJsWs c && specWsNbspOnly rest

/- Well-formedness of a chunk list: exactly the shape linesTerm produces.
   Each line is terminator-free, every chunk but the last carries a single
   terminator character, and the last chunk has an empty terminator. -/
def WfChunks : List (List Char × List Char) → Prop
  | [] => False
  | [(l, t)] => l.all notTerm = true ∧ t = []
  | (l, t) :: ls => l.all notTerm = true ∧ (∃ c, t = [c] ∧ isLineTerm c = true) ∧ WfChunks ls

theorem litCI_length : ∀ (pat s r : List Char), litCI pat s = some r →
    r.length + pat.length = s.length := by
  intro pat
  induction pat with
  | nil =>
    intro s r h
    simp only [litCI, Option.some.injEq] at h
    subst h
    simp
  | cons p ps ih =>
    intro s r h
    cases s with
    | nil => simp [litCI] at h
    | cons c cs =>
      simp only [litCI] at h
      by_cases hl : lowerEq p c = true
      · rw [if_pos hl] at h
        have := ih cs r h
        simp only [List.length_cons]
        omega
      · rw [if_neg hl] at h
        cases h

theorem dropChoices_length_le (p : Char → Bool) (s t : List Char)
    (ht : t ∈ dropChoices p s) : t.length ≤ s.length := by
  simp only [dropChoices, List.mem_map] at ht
  obtain ⟨i, _, rfl⟩ := ht
  rw [List.length_drop]
  omega

theorem matchCls_le (p : Char → Bool) (k : List Char → Option (List Char))
    (hk : ∀ t r, k t = some r → r.length ≤ t.length) :
    ∀ s r, matchCls p k s = some r → r.length ≤ s.length := by
  intro s r h
  cases s with
  | nil => simp [matchCls] at h
  | cons c cs =>
    simp only [matchCls] at h
    by_cases hp : p c = true
    · rw [if_pos hp] at h
      have := hk cs r h
      simp only [List.length_cons]
      omega
    · rw [if_neg hp] at h
      cases h

theorem matchLit_le (pat : List Char) (k : List Char → Option (List Char))
    (hk : ∀ t r, k t = some r → r.length ≤ t.length) :
    ∀ s r, matchLit pat k s = some r → r.length ≤ s.length := by
  intro s r h
  unfold matchLit at h
  cases hl : litCI pat s with
  | none => rw [hl] at h; cases h
  | some m =>
    rw [hl] at h
    have h' : k m = some r := h
    have h1 := litCI_length pat s m hl
    have h2 := hk m r h'
    omega

theorem matchStar_le (p : Char → Bool) (k : List Char → Option (List Char))
    (hk : ∀ t r, k t = some r → r.length ≤ t.length) :
    ∀ s r, matchStar p k s = some r → r.length ≤ s.length := by
  intro s r h
  unfold matchStar at h
  obtain ⟨t, ht, hkt⟩ := List.exists_of_findSome?_eq_some h
  have := dropChoices_length_le p s t ht
  have := hk t r hkt
  omega

theorem matchPlus_le (p : Char → Bool) (k : List Char → Option (List Char))
    (hk : ∀ t r, k t = some r → r.length ≤ t.length) :
    ∀ s r, matchPlus p k s = some r → r.length ≤ s.length := by
  intro s r h
  unfold matchPlus at h
  obtain ⟨t, ht, hkt⟩ := List.exists_of_findSome?_eq_some h
  have := dropChoices_length_le p s t (List.mem_of_mem_dropLast ht)
  have := hk t r hkt
  omega

theorem markerTail_le : ∀ s r, markerTail s = some r → r.length ≤ s.length := by
  unfold markerTail
  exact matchPlus_le _ _ (matchStar_le _ _ (matchLit_le _ _ (matchCls_le _ _
    (matchStar_le _ _ (matchLit_le _ _ (matchStar_le _ _ (matchLit_le _ _
      (matchStar_le _ _ (matchCls_le _ _ (matchStar_le _ _ (matchLit_le _ _
        (fun t r h => by cases h; exact Nat.le_refl _))))))))))))

theorem matchMarker_lt : ∀ s r, matchMarker s = some r → r.length < s.length := by
  intro s r h
  unfold matchMarker at h
  cases hl : litCI ("<div".data) s with
  | none => rw [hl] at h; cases h
  | some m =>
    rw [hl] at h
    have h' : markerTail m = some r := h
    have h1 := litCI_length _ _ _ hl
    have h2 := markerTail_le m r h'
    have h4 : ("<div".data).length = 4 := rfl
    omega

/- splitAuxF does not depend on the fuel as long as the fuel exceeds the
   input length, so splitIntoPages is well defined as a model of the split. -/
theorem splitAuxF_fuel : ∀ (n f1 f2 : Nat) (acc s : List Char), s.length ≤ n →
    s.length < f1 → s.length < f2 → splitAuxF f1 acc s = splitAuxF f2 acc s := by
  intro n
  induction n with
  | zero =>
    intro f1 f2 acc s hn h1 h2
    cases f1 with
    | zero => omega
    | succ g1 =>
      cases f2 with
      | zero => omega
      | succ g2 =>
        have hs : s = [] := List.eq_nil_of_length_eq_zero (Nat.le_zero.mp hn)
        subst hs
        have hm : matchMarker [] = none := rfl
        simp [splitAuxF, hm]
  | succ n ih =>
    intro f1 f2 acc s hn h1 h2
    cases f1 with
    | zero => omega
    | succ g1 =>
      cases f2 with
      | zero => omega
      | succ g2 =>
        cases hm : matchMarker s with
        | some rem =>
          have hlt := matchMarker_lt s rem hm
          simp only [splitAuxF, hm]
          rw [ih g1 g2 [] rem (by omega) (by omega) (by omega)]
        | none =>
          cases s with
          | nil => simp [splitAuxF, hm]
          | cons c rest =>
            simp only [splitAuxF, hm]
            simp only [List.length_cons] at hn h1 h2
            exact ih g1 g2 (c :: acc) rest (by omega) (by omega) (by omega)

theorem splitAuxF_no_marker : ∀ (s : List Char) (fuel : Nat) (acc : List Char),
    hasMarker s = false → s.length < fuel → splitAuxF fuel acc s = [acc.reverse ++ s] := by
  intro s
  induction s with
  | nil =>
    intro fuel acc h hf
    cases fuel with
    | zero => omega
    | succ g =>
      have hm : matchMarker [] = none := rfl
      simp [splitAuxF, hm]
  | cons c rest ih =>
    intro fuel acc h hf
    cases fuel with
    | zero => simp at hf
    | succ g =>
      cases hmm : matchMarker (c :: rest) with
      | some r => simp [hasMarker, hmm] at h
      | none =>
        have hrest : hasMarker rest = false := by
          simp only [hasMarker, hmm, Option.isSome_none, Bool.false_or] at h
          exact h
        simp only [splitAuxF, hmm]
        rw [ih g (c :: acc) hrest (by simp only [List.length_cons] at hf; omega)]
        simp [List.reverse_cons, List.append_assoc]

theorem linesTerm_cons_ex : ∀ s : List Char, ∃ l t ls, linesTerm s = (l, t) :: ls := by
  intro s
  cases s with
  | nil => exact ⟨[], [], [], rfl⟩
  | cons c rest =>
    by_cases hc : isLineTerm c = true
    · exact ⟨[], [c], linesTerm rest, by simp [linesTerm, hc]⟩
    · cases hr : linesTerm rest with
      | nil => exact ⟨[c], [], [], by simp [linesTerm, hc, hr]⟩
      | cons q ls => exact ⟨c :: q.1, q.2, ls, by simp [linesTerm, hc, hr]⟩

theorem wf_linesTerm : ∀ s : List Char, WfChunks (linesTerm s) := by
  intro s
  induction s with
  | nil => simp [linesTerm, WfChunks]
  | cons c rest ih =>
    by_cases hc : isLineTerm c = true
    · obtain ⟨l, t, ls, hr⟩ := linesTerm_cons_ex rest
      rw [hr] at ih
      simp only [linesTerm, hc, if_true, hr]
      exact ⟨rfl, ⟨c, rfl, hc⟩, ih⟩
    · obtain ⟨l, t, ls, hr⟩ := linesTerm_cons_ex rest
      rw [hr] at ih
      simp only [linesTerm, hc, if_false, hr]
      have hcn : notTerm c = true := by simp [notTerm, hc]
      cases ls with
      | nil =>
        simp only [WfChunks] at ih ⊢
        exact ⟨by simp [hcn, ih.1], ih.2⟩
      | cons q ls' =>
        simp only [WfChunks] at ih ⊢
        exact ⟨by simp [hcn, ih.1], ih.2.1, ih.2.2⟩

theorem linesTerm_of_notTerm : ∀ l : List Char, l.all notTerm = true →
    linesTerm l = [(l, [])] := by
  intro l
  induction l with
  | nil => intro _; rfl
  | cons c rest ih =>
    intro h
    simp only [List.all_cons, Bool.and_eq_true] at h
    have hc : isLineTerm c = false := by
      have := h.1
      simp [notTerm] at this
      exact this
    simp [linesTerm, hc, ih h.2]

theorem linesTerm_append : ∀ (l z l0 t0 : List Char) (ls : List (List Char × List Char)),
    l.all notTerm = true → linesTerm z = (l0, t0) :: ls →
    linesTerm (l ++ z) = (l ++ l0, t0) :: ls := by
  intro l
  induction l with
  | nil => intro z l0 t0 ls _ hz; simpa using hz
  | cons c rest ih =>
    intro z l0 t0 ls h hz
    simp only [List.all_cons, Bool.and_eq_true] at h
    have hc : isLineTerm c = false := by
      have := h.1
      simp [notTerm] at this
      exact this
    have hr := ih z l0 t0 ls h.2 hz
    simp [linesTerm, hc, hr]

theorem joinLT_linesTerm : ∀ s : List Char, joinLT (linesTerm s) = s := by
  intro s
  induction s with
  | nil => rfl
  | cons c rest ih =>
    by_cases hc : isLineTerm c = true
    · simp [linesTerm, hc, joinLT, ih]
    · obtain ⟨l, t, ls, hr⟩ := linesTerm_cons_ex rest
      rw [hr] at ih
      simp only [joinLT] at ih
      simp [linesTerm, hc, hr, joinLT, ih]

theorem joinStrip_eq_joinLT : ∀ ls : List (List Char × List Char),
    (∀ p ∈ ls, isHrLine p.1 = false) → joinStrip ls = joinLT ls := by
  intro ls
  induction ls with
  | nil => intro _; rfl
  | cons p ls ih =>
    intro h
    have hp := h p (List.mem_cons_self p ls)
    have ih' := ih (fun q hq => h q (List.mem_cons_of_mem p hq))
    simp [joinStrip, joinLT, hp, ih']

theorem linesTerm_joinStrip : ∀ ls : List (List Char × List Char), WfChunks ls →
    linesTerm (joinStrip ls) =
      ls.map (fun p => ((if isHrLine p.1 then [] else p.1), p.2)) := by
  intro ls
  induction ls with
  | nil => intro h; simp [WfChunks] at h
  | cons p ls ih =>
    intro h
    obtain ⟨l, t⟩ := p
    cases ls with
    | nil =>
      simp only [WfChunks] at h
      obtain ⟨hall, ht⟩ := h
      subst ht
      have hall' : (if isHrLine l then [] else l).all notTerm = true := by
        by_cases hl : isHrLine l = true
        · simp [hl]
        · simp only [hl, if_false]
          exact hall
      simp only [joinStrip, List.append_nil, List.map_cons, List.map_nil]
      rw [linesTerm_of_notTerm _ hall']
    | cons q ls' =>
      simp only [WfChunks] at h
      obtain ⟨hall, ⟨c, htc, hterm⟩, hwf⟩ := h
      subst htc
      have hall' : (if isHrLine l then [] else l).all notTerm = true := by
        by_cases hl : isHrLine l = true
        · simp [hl]
        · simp only [hl, if_false]
          exact hall
      have hih := ih hwf
      have hstep : linesTerm (c :: joinStrip (q :: ls')) =
          ([], [c]) :: linesTerm (joinStrip (q :: ls')) := by
        simp [linesTerm, hterm]
      have hfin := linesTerm_append (if isHrLine l then [] else l)
        (c :: joinStrip (q :: ls')) [] [c] (linesTerm (joinStrip (q :: ls'))) hall'
        hstep
      have hsing : (if isHrLine l then [] else l) ++ [c] ++ joinStrip (q :: ls') =
          (if isHrLine l then [] else l) ++ (c :: joinStrip (q :: ls')) := by
        simp [List.append_assoc]
      have hunfold : joinStrip ((l, [c]) :: q :: ls') =
          (if isHrLine l then [] else l) ++ [c] ++ joinStrip (q :: ls') := rfl
      rw [hunfold, hsing, hfin, hih]
      simp

theorem stripHr_lines : ∀ (s : List Char) (p : List Char × List Char),
    p ∈ linesTerm (stripHr s) → isHrLine p.1 = false := by
  intro s p hp
  unfold stripHr at hp
  rw [linesTerm_joinStrip (linesTerm s) (wf_linesTerm s)] at hp
  simp only [List.mem_map] at hp
  obtain ⟨q, _, rfl⟩ := hp
  cases hq : isHrLine q.1 with
  | true => simp only [hq, if_true]; decide
  | false => simp [hq]

theorem stripHr_eq_self : ∀ s : List Char,
    (∀ p ∈ linesTerm s, isHrLine p.1 = false) → stripHr s = s := by
  intro s h
  unfold stripHr
  rw [joinStrip_eq_joinLT (linesTerm s) h, joinLT_linesTerm]

theorem fixToc_cons_pos {c : Char} {rest : List Char}
    (h : (c == '\n' && tocPat.isPrefixOf rest) = true) :
    fixToc (c :: rest) = '\n' :: '\n' :: fixToc rest := by
  simp only [fixToc]
  rw [if_pos h]

theorem fixToc_cons_neg {c : Char} {rest : List Char}
    (h : ¬((c == '\n' && tocPat.isPrefixOf rest) = true)) :
    fixToc (c :: rest) = c :: fixToc rest := by
  simp only [fixToc]
  rw [if_neg h]

theorem fixToc_lines : ∀ (s lf tf lr tr : List Char)
    (lsf lsr : List (List Char × List Char)),
    linesTerm (fixToc s) = (lf, tf) :: lsf → linesTerm s = (lr, tr) :: lsr →
    lf = lr ∧ ∀ l ∈ lsf.map Prod.fst, l ∈ lsr.map Prod.fst ∨ l = [] := by
  intro s
  induction s with
  | nil =>
    intro lf tf lr tr lsf lsr hf hr
    have hf' : (([] : List Char), ([] : List Char)) :: [] = (lf, tf) :: lsf := hf
    have hr' : (([] : List Char), ([] : List Char)) :: [] = (lr, tr) :: lsr := hr
    simp only [List.cons.injEq, Prod.mk.injEq] at hf' hr'
    obtain ⟨⟨hlf, _⟩, hlsf⟩ := hf'
    obtain ⟨⟨hlr, _⟩, hlsr⟩ := hr'
    subst hlf
    subst hlr
    subst hlsf
    exact ⟨rfl, by simp⟩
  | cons c rest ih =>
    intro lf tf lr tr lsf lsr hf hr
    obtain ⟨l0, t0, ls0, h0⟩ := linesTerm_cons_ex rest
    obtain ⟨l1, t1, ls1, h1⟩ := linesTerm_cons_ex (fixToc rest)
    obtain ⟨hhead, htail⟩ := ih l1 t1 l0 t0 ls1 ls0 h1 h0
    by_cases hcond : (c == '\n' && tocPat.isPrefixOf rest) = true
    · have hc : c = '\n' := beq_iff_eq.mp ((Bool.and_eq_true _ _).mp hcond).1
      subst hc
      have hfx : fixToc ('\n' :: rest) = '\n' :: '\n' :: fixToc rest :=
        fixToc_cons_pos hcond
      have hnl : isLineTerm '\n' = true := rfl
      have hlt : linesTerm ('\n' :: '\n' :: fixToc rest) =
          ([], ['\n']) :: ([], ['\n']) :: linesTerm (fixToc rest) := by
        simp [linesTerm, hnl]
      rw [hfx, hlt, h1] at hf
      have hlt2 : linesTerm ('\n' :: rest) = ([], ['\n']) :: linesTerm rest := by
        simp [linesTerm, hnl]
      rw [hlt2, h0] at hr
      simp only [List.cons.injEq, Prod.mk.injEq] at hf hr
      obtain ⟨⟨hlf, _⟩, hlsf⟩ := hf
      obtain ⟨⟨hlr, _⟩, hlsr⟩ := hr
      subst hlf
      subst hlr
      subst hlsf
      subst hlsr
      refine ⟨rfl, ?_⟩
      intro l hl
      simp only [List.map_cons, List.mem_cons] at hl ⊢
      rcases hl with rfl | rfl | hl
      · right; rfl
      · left; left; exact hhead
      · rcases htail l hl with h | h
        · left; right; exact h
        · right; exact h
    · have hfx : fixToc (c :: rest) = c :: fixToc rest :=
        fixToc_cons_neg hcond
      by_cases hterm : isLineTerm c = true
      · have hlt : linesTerm (c :: fixToc rest) = ([], [c]) :: linesTerm (fixToc rest) := by
          simp [linesTerm, hterm]
        have hlt2 : linesTerm (c :: rest) = ([], [c]) :: linesTerm rest := by
          simp [linesTerm, hterm]
        rw [hfx, hlt, h1] at hf
        rw [hlt2, h0] at hr
        simp only [List.cons.injEq, Prod.mk.injEq] at hf hr
        obtain ⟨⟨hlf, _⟩, hlsf⟩ := hf
        obtain ⟨⟨hlr, _⟩, hlsr⟩ := hr
        subst hlf
        subst hlr
        subst hlsf
        subst hlsr
        refine ⟨rfl, ?_⟩
        intro l hl
        simp only [List.map_cons, List.mem_cons] at hl ⊢
        rcases hl with rfl | hl
        · left; left; exact hhead
        · rcases htail l hl with h | h
          · left; right; exact h
          · right; exact h
      · have hlt : linesTerm (c :: fixToc rest) = (c :: l1, t1) :: ls1 := by
          simp [linesTerm, hterm, h1]
        have hlt2 : linesTerm (c :: rest) = (c :: l0, t0) :: ls0 := by
          simp [linesTerm, hterm, h0]
        rw [hfx, hlt] at hf
        rw [hlt2] at hr
        simp only [List.cons.injEq, Prod.mk.injEq] at hf hr
        obtain ⟨⟨hlf, _⟩, hlsf⟩ := hf
        obtain ⟨⟨hlr, _⟩, hlsr⟩ := hr
        subst hlf
        subst hlr
        subst hlsf
        subst hlsr
        exact ⟨by rw [hhead], htail⟩

theorem fixToc_lines_all : ∀ (u l : List Char),
    l ∈ (linesTerm (fixToc u)).map Prod.fst →
    l ∈ (linesTerm u).map Prod.fst ∨ l = [] := by
  intro u l hl
  obtain ⟨l0, t0, ls0, h0⟩ := linesTerm_cons_ex u
  obtain ⟨l1, t1, ls1, h1⟩ := linesTerm_cons_ex (fixToc u)
  obtain ⟨hhead, htail⟩ := fixToc_lines u l1 t1 l0 t0 ls1 ls0 h1 h0
  rw [h1] at hl
  rw [h0]
  simp only [List.map_cons, List.mem_cons] at hl ⊢
  rcases hl with rfl | hl
  · left; left; exact hhead
  · rcases htail l hl with h | h
    · left; right; exact h
    · right; exact h

theorem normalize_lines : ∀ (s : List Char) (p : List Char × List Char),
    p ∈ linesTerm (normalizeMarkdown s) → isHrLine p.1 = false := by
  intro s p hp
  unfold normalizeMarkdown at hp
  have hl : p.1 ∈ (linesTerm (fixToc (stripHr (removeInvisible s)))).map Prod.fst :=
    List.mem_map_of_mem Prod.fst hp
  rcases fixToc_lines_all _ _ hl with h | h
  · obtain ⟨q, hq, hq1⟩ := List.mem_map.mp h
    have := stripHr_lines (removeInvisible s) q hq
    rw [← hq1]
    exact this
  · rw [h]; decide

theorem stripHr_normalize : ∀ s : List Char,
    stripHr (normalizeMarkdown s) = normalizeMarkdown s :=
  fun s => stripHr_eq_self _ (normalize_lines s)

theorem joinStrip_mem : ∀ (ls : List (List Char × List Char)) (c : Char),
    c ∈ joinStrip ls → c ∈ joinLT ls := by
  intro ls
  induction ls with
  | nil => intro c h; simp [joinStrip] at h
  | cons p ls ih =>
    intro c h
    simp only [joinStrip, List.mem_append] at h
    simp only [joinLT, List.mem_append]
    rcases h with (h | h) | h
    · left; left
      by_cases hp : isHrLine p.1 = true
      · rw [if_pos hp] at h; simp at h
      · rw [if_neg hp] at h; exact h
    · left; right; exact h
    · right; exact ih c h

theorem stripHr_mem : ∀ (s : List Char) (c : Char), c ∈ stripHr s → c ∈ s := by
  intro s c h
  have := joinStrip_mem (linesTerm s) c h
  rwa [joinLT_linesTerm] at this

theorem fixToc_mem : ∀ (s : List Char) (x : Char), x ∈ fixToc s → x ∈ s ∨ x = '\n' := by
  intro s
  induction s with
  | nil => intro x h; simp [fixToc] at h
  | cons c rest ih =>
    intro x h
    by_cases hcond : (c == '\n' && tocPat.isPrefixOf rest) = true
    · rw [fixToc_cons_pos hcond] at h
      simp only [List.mem_cons] at h
      rcases h with rfl | rfl | h
      · right; rfl
      · right; rfl
      · rcases ih x h with hx | hx
        · left; exact List.mem_cons_of_mem c hx
        · right; exact hx
    · rw [fixToc_cons_neg hcond] at h
      simp only [List.mem_cons] at h
      rcases h with rfl | h
      · left; exact List.mem_cons_self _ _
      · rcases ih x h with hx | hx
        · left; exact List.mem_cons_of_mem c hx
        · right; exact hx

theorem removeInvisible_no_inv : ∀ (s : List Char) (c : Char),
    c ∈ removeInvisible s → isInvChar c = false := by
  intro s c h
  have := (List.mem_filter.mp h).2
  simpa using this

theorem normalize_no_inv : ∀ (s : List Char) (c : Char),
    c ∈ normalizeMarkdown s → isInvChar c = false := by
  intro s c h
  unfold normalizeMarkdown at h
  rcases fixToc_mem _ _ h with h2 | rfl
  · exact removeInvisible_no_inv s c (stripHr_mem _ _ h2)
  · decide

theorem removeInvisible_eq_self : ∀ s : List Char,
    (∀ c ∈ s, isInvChar c = false) → removeInvisible s = s := by
  intro s h
  unfold removeInvisible
  rw [List.filter_eq_self]
  intro a ha
  simp [h a ha]

theorem removeInvisible_normalize : ∀ s : List Char,
    removeInvisible (normalizeMarkdown s) = normalizeMarkdown s :=
  fun s => removeInvisible_eq_self _ (fun c hc => normalize_no_inv s c hc)

theorem fixToc_of_no_seam : ∀ s : List Char, hasTocSeam s = false → fixToc s = s := by
  intro s
  induction s with
  | nil => intro _; rfl
  | cons c rest ih =>
    intro h
    by_cases hcond : (c == '\n' && tocPat.isPrefixOf rest) = true
    · exfalso
      have hc : c = '\n' := beq_iff_eq.mp ((Bool.and_eq_true _ _).mp hcond).1
      subst hc
      have hpre : ('\n' :: tocPat).isPrefixOf ('\n' :: rest) = true := by
        have hdef : ('\n' :: tocPat).isPrefixOf ('\n' :: rest) =
            ('\n' == '\n' && tocPat.isPrefixOf rest) := rfl
        rw [hdef, ((Bool.and_eq_true _ _).mp hcond).2]
        rfl
      rw [show hasTocSeam ('\n' :: rest) =
        (('\n' :: tocPat).isPrefixOf ('\n' :: rest) || hasTocSeam rest) from rfl,
        hpre] at h
      simp at h
    · have hrest : hasTocSeam rest = false := by
        rw [show hasTocSeam (c :: rest) =
          (('\n' :: tocPat).isPrefixOf (c :: rest) || hasTocSeam rest) from rfl] at h
        cases hx : hasTocSeam rest with
        | false => rfl
        | true => rw [hx] at h; simp at h
      rw [fixToc_cons_neg hcond]
      rw [ih hrest]

theorem no_nl_no_seam : ∀ s : List Char, (∀ c ∈ s, c ≠ '\n') → hasTocSeam s = false := by
  intro s
  induction s with
  | nil => intro _; rfl
  | cons c rest ih =>
    intro h
    have hc : ('\n' == c) = false := by
      have hne := h c (List.mem_cons_self _ _)
      exact beq_eq_false_iff_ne.mpr (fun hq => hne hq.symm)
    rw [show hasTocSeam (c :: rest) =
      (('\n' :: tocPat).isPrefixOf (c :: rest) || hasTocSeam rest) from rfl]
    have hp : ('\n' :: tocPat).isPrefixOf (c :: rest) = false := by
      have hdef : ('\n' :: tocPat).isPrefixOf (c :: rest) =
          ('\n' == c && tocPat.isPrefixOf rest) := rfl
      rw [hdef, hc]
      rfl
    rw [hp, ih (fun x hx => h x (List.mem_cons_of_mem c hx))]
    rfl

/-- C1 counterexample: normalization is not idempotent. On the input
"foo\n**ตอนที่ 1**" the chapter-heading replace fires again on its own
output, inserting a third newline on the second pass. -/
theorem c1_counterexample :
    normalizeMarkdown (normalizeMarkdown ("foo\n**ตอนที่ 1**".data)) ≠
      normalizeMarkdown ("foo\n**ตอนที่ 1**".data) := by decide

/-- C1 (amended): normalization is idempotent on every string whose
normalized form does not contain a newline immediately followed by the
chapter token "**ตอนที่"; in general the chapter-heading rule re-matches
its own output, so unrestricted idempotence fails. -/
theorem c1_amended (s : List Char)
    (h : hasTocSeam (normalizeMarkdown s) = false) :
    normalizeMarkdown (normalizeMarkdown s) = normalizeMarkdown s := by
  show fixToc (stripHr (removeInvisible (normalizeMarkdown s))) = normalizeMarkdown s
  rw [removeInvisible_normalize s, stripHr_normalize s, fixToc_of_no_seam _ h]

/-- C1 witness: the amended idempotence applied at the concrete
input "hello\nworld". -/
theorem c1_amended_witness :
    hasTocSeam (normalizeMarkdown ("hello\nworld".data)) = false ∧
    normalizeMarkdown (normalizeMarkdown ("hello\nworld".data)) =
      normalizeMarkdown ("hello\nworld".data) :=
  ⟨by decide, c1_amended ("hello\nworld".data) (by decide)⟩

/-- C2 counterexample: the horizontal-rule regex class [-*_]\x7b3,\x7d does not
require the three-or-more characters to be identical, so the mixed lines
"-*-" and "--*--" are removed, while the claim says they are preserved. -/
theorem c2_counterexample :
    normalizeMarkdown ("-*-".data) = [] ∧
    normalizeMarkdown ("a\n--*--\nb".data) = "a\n\nb".data ∧
    normalizeMarkdown ("-*-".data) ≠ "-*-".data := by decide

/-- C2 (amended): on any single line free of line terminators and invisible
characters, normalization removes the line exactly when, after stripping
leading and trailing spaces and tabs, it consists of three or more
characters drawn from the set -, *, _ (not necessarily identical): "---"
and "____" are removed, "--- text" is preserved, and the mixed lines "-*-"
and "--*--" are also removed. -/
theorem c2_amended (l : List Char)
    (h : l.all (fun c => notTerm c && !isInvChar c) = true) :
    normalizeMarkdown l = if isHrLine l then [] else l := by
  have hninv : ∀ c ∈ l, isInvChar c = false := by
    intro c hc
    have hb := (Bool.and_eq_true _ _).mp ((List.all_eq_true.mp h) c hc)
    have := hb.2
    rw [Bool.not_eq_true'] at this
    exact this
  have hnt : l.all notTerm = true := by
    rw [List.all_eq_true]
    intro c hc
    exact ((Bool.and_eq_true _ _).mp ((List.all_eq_true.mp h) c hc)).1
  show fixToc (stripHr (removeInvisible l)) = if isHrLine l then [] else l
  rw [removeInvisible_eq_self l hninv]
  unfold stripHr
  rw [linesTerm_of_notTerm l hnt]
  have hstrip : joinStrip [(l, [])] = (if isHrLine l then [] else l) := by
    simp [joinStrip]
  rw [hstrip]
  by_cases hl : isHrLine l = true
  · rw [if_pos hl]
    rfl
  · rw [if_neg hl]
    apply fixToc_of_no_seam
    apply no_nl_no_seam
    intro c hc hceq
    have := (List.all_eq_true.mp hnt) c hc
    subst hceq
    simp [notTerm, isLineTerm] at this

/-- C2 witness: the amended rule applied at the concrete line "---",
which is removed. -/
theorem c2_amended_witness :
    ("---".data).all (fun c => notTerm c && !isInvChar c) = true ∧
    normalizeMarkdown ("---".data) =
      (if isHrLine ("---".data) then [] else "---".data) :=
  ⟨by decide, c2_amended ("---".data) (by decide)⟩

set_option maxRecDepth 8192 in
/-- C3 counterexample: the marker regex requires the literal text
"page-break-after:" and only then allows whitespace, so a marker written
with whitespace before the colon is not matched: splitIntoPages keeps the
whole document as one segment and the marker survives inside it. -/
theorem c3_counterexample :
    splitIntoPages ("A\n<div style=\"page-break-after : always\"></div>\nB".data) =
      ["A\n<div style=\"page-break-after : always\"></div>\nB".data] ∧
    "A\n<div style=\"page-break-after : always\"></div>\nB".data =
      "A\n".data ++ "<div style=\"page-break-after : always\"></div>".data ++
        "\nB".data := by decide

set_option maxRecDepth 8192 in
/-- C3 (amended): the matcher tolerates arbitrary whitespace after the
colon but none before it: a marker with spaces after the colon is split
out and removed, while a marker with a space before the colon is not
recognized and the text is not split there. -/
theorem c3_amended :
    splitIntoPages ("A\n<div style=\"page-break-after:   always\"></div>\nB".data) =
      ["A".data, "B".data] ∧
    splitIntoPages ("A\n<div style=\"page-break-after : always\"></div>\nB".data) =
      ["A\n<div style=\"page-break-after : always\"></div>\nB".data] := by decide

/-- C4 counterexample: an input that already has a blank line before the
chapter token is not left unchanged: the rule matches the second of the
two newlines and inserts another one. -/
theorem c4_counterexample :
    normalizeMarkdown ("foo\n\n**ตอนที่ 1**".data) ≠ "foo\n\n**ตอนที่ 1**".data := by
  decide

/-- C4 (amended): normalizeMarkdown maps "foo\n**ตอนที่ 1**" to
"foo\n\n**ตอนที่ 1**", but an input already containing a blank line before
the token is not a fixed point of the rule: the rule fires on the last
newline of the blank run and yields "foo\n\n\n**ตอนที่ 1**". -/
theorem c4_amended :
    normalizeMarkdown ("foo\n**ตอนที่ 1**".data) = "foo\n\n**ตอนที่ 1**".data ∧
    normalizeMarkdown ("foo\n\n**ตอนที่ 1**".data) = "foo\n\n\n**ตอนที่ 1**".data := by
  decide

set_option maxRecDepth 8192 in
/-- C5: the end-to-end scenario: normalizing and then splitting the
three-marker document yields exactly ["Intro", "Chapter 1 text",
"Chapter 2"] in that order. -/
theorem c5_end_to_end :
    splitIntoPages (normalizeMarkdown
      ("Intro\n<div style=\"page-break-after: always;\"></div>\n\nChapter 1 text\n<div style='page-break-after:always'></div>\n&nbsp;\n<div style=\"page-break-after: always\"></div>\nChapter 2".data)) =
      ["Intro".data, "Chapter 1 text".data, "Chapter 2".data] := by decide

set_option maxRecDepth 8192 in
/-- C6: no phantom pages: the empty and whitespace-only documents paginate
to the empty sequence; a well-formed marker at the very start or very end
of the document contributes no output segment; and two markers whose gap
is only whitespace or only the literal entity produce no segment between
them. -/
theorem c6_no_phantom_pages :
    splitIntoPages ("".data) = [] ∧
    splitIntoPages ("   \n\t  ".data) = [] ∧
    splitIntoPages ("<div style=\"page-break-after: always\"></div>Doc".data) =
      ["Doc".data] ∧
    splitIntoPages ("Doc<div style=\"page-break-after: always\"></div>".data) =
      ["Doc".data] ∧
    splitIntoPages ("A<div style=\"page-break-after: always\"></div>&nbsp;<div style=\"page-break-after: always\"></div>B".data) =
      ["A".data, "B".data] ∧
    splitIntoPages ("A<div style=\"page-break-after: always\"></div> \n\t <div style=\"page-break-after: always\"></div>B".data) =
      ["A".data, "B".data] := by decide

/-- C7 counterexample: the input "& nbsp;" contains no marker and is not a
concatenation of whitespace and literal entities, yet splitIntoPages
discards it instead of returning the trimmed input, because the filter
deletes whitespace before looking for the literal entity. -/
theorem c7_counterexample :
    hasMarker ("& nbsp;".data) = false ∧
    specWsNbspOnly ("& nbsp;".data) = false ∧
    "& nbsp;".data ≠ ([] : List Char) ∧
    splitIntoPages ("& nbsp;".data) ≠ [jsTrim ("& nbsp;".data)] := by decide

/-- C7 (amended): on any input with no page-break marker, splitIntoPages
returns the single trimmed input, except that it returns the empty
sequence when deleting all whitespace and then all literal entity
occurrences from the trimmed input leaves nothing. -/
theorem c7_amended (s : List Char) (h : hasMarker s = false) :
    splitIntoPages s =
      if (stripPage (jsTrim s)).length = 0 then [] else [jsTrim s] := by
  unfold splitIntoPages
  rw [splitAuxF_no_marker s (s.length + 1) [] h (by omega)]
  simp only [List.reverse_nil, List.nil_append, List.map_cons, List.map_nil]
  by_cases hp : (stripPage (jsTrim s)).length = 0
  · rw [if_pos hp]
    simp [List.filter_cons, hp]
  · rw [if_neg hp]
    have hdec : decide (0 < (stripPage (jsTrim s)).length) = true := by
      simp
      omega
    simp [List.filter_cons, hdec]

/-- C7 witness: the amended zero-marker behaviour applied at the concrete
input "  hello  ", which trims to "hello". -/
theorem c7_amended_witness :
    hasMarker ("  hello  ".data) = false ∧
    splitIntoPages ("  hello  ".data) =
      (if (stripPage (jsTrim ("  hello  ".data))).length = 0 then []
       else [jsTrim ("  hello  ".data)]) :=
  ⟨by decide, c7_amended ("  hello  ".data) (by decide)⟩

/-- C8: the normalized output contains no byte-order-mark and no
zero-width-space character, and the removal step itself keeps the
remaining characters of the input in their relative order: it is a
sublist of the input that preserves the count of every character other
than the two removed ones. -/
theorem c8_bom_zwsp_removal : ∀ (s : List Char) (c : Char),
    (normalizeMarkdown s).count '﻿' = 0 ∧
    (normalizeMarkdown s).count '​' = 0 ∧
    List.Sublist (removeInvisible s) s ∧
    (removeInvisible s).count c =
      (if isInvChar c = true then 0 else s.count c) := by
  intro s c
  refine ⟨?_, ?_, List.filter_sublist s, ?_⟩
  · rw [List.count_eq_zero]
    intro hmem
    have := normalize_no_inv s _ hmem
    exact absurd this (by decide)
  · rw [List.count_eq_zero]
    intro hmem
    have := normalize_no_inv s _ hmem
    exact absurd this (by decide)
  · by_cases hc : isInvChar c = true
    · rw [if_pos hc]
      rw [List.count_eq_zero]
      intro hmem
      have := removeInvisible_no_inv s c hmem
      rw [hc] at this
      cases this
    · rw [if_neg hc]
      cases hb : isInvChar c with
      | true => exact absurd hb hc
      | false => exact List.count_filter (by simp [hb])

set_option maxRecDepth 8192 in
/-- C9: the empty-page filter removes whitespace first and the literal
entity second, so a segment whose characters only form the entity after
its internal whitespace is removed, such as "& nbsp;" or "&nb sp;", is
discarded as an empty page. -/
theorem c9_filter_order :
    splitIntoPages ("A<div style=\"page-break-after: always\"></div>& nbsp;<div style=\"page-break-after: always\"></div>B".data) =
      ["A".data, "B".data] ∧
    splitIntoPages ("& nbsp;".data) = [] ∧
    splitIntoPages ("&nb sp;".data) = [] ∧
    stripPage ("& nbsp;".data) = [] ∧
    stripPage ("&nb sp;".data) = [] := by decide

/-- C10: removing a standalone horizontal-rule line erases only the line
content and keeps the surrounding newlines, so "a\n---\nb" normalizes to
"a\n\nb", not to "a\nb". -/
theorem c10_hr_residue :
    normalizeMarkdown ("a\n---\nb".data) = "a\n\nb".data ∧
    normalizeMarkdown ("a\n---\nb".data) ≠ "a\nb".data := by decide
